import Mathlib

/-!
# Verification of the OS-algorithm visualizer engines

Shallow embedding of the two simulation engines of the repository
(page replacement in `src/components/PageReplacement.tsx`, disk
scheduling in the `DiskScheduling` component): the React state
variables become fields of explicit state structures, and the
event handlers `handleNext` / `moveHead` (together with the pure
selection helper `getNextRequest`) become pure step functions on
those structures.

`Date.now()` is modelled by an abstract clock counter stored in the
page-replacement state and incremented on every step; successive
reads of the real clock at distinct steps are strictly increasing,
which is the abstraction used throughout.  The `loadOrder` field of
a page is ghost instrumentation recording when a page entered
residency (it is set to the clock at entry and never changed); it
does not influence any computation.  Similarly `arrivalOrder` on a
disk request records the index in the initial request array and is
never read by the selection code.  Animation flags (`isEntering`,
`isLeaving`, `prevValue`) and narration strings are presentation
state and are not modelled; the step result records the narration
class (hit / fault with optional evicted id / complete) instead.
-/

namespace PageSim

/-- A resident page: `id` and `timestamp` are the fields of the
source's `Page` interface (`timestamp` holds the last access time);
`loadOrder` is ghost instrumentation marking when the page entered
residency. -/
structure Page where
  id : Nat
  timestamp : Nat
  loadOrder : Nat
deriving DecidableEq, Repr

instance : Inhabited Page := ⟨⟨0, 0, 0⟩⟩

/-- The two page-replacement policies of the source. -/
inductive Alg
  | FIFO
  | LRU
deriving DecidableEq, Repr

/-- The component state of `PageReplacement`: resident pages, the
reference sequence, the cursor, the fault counter, the selected
algorithm, and the abstract clock standing for `Date.now()`. -/
structure PRState where
  pages : List Page
  sequence : List Nat
  currentStep : Nat
  pageFaults : Nat
  algorithm : Alg
  clock : Nat
deriving DecidableEq, Repr

/-- Narration class of one step: hit, fault (with the evicted id if
a page was replaced), or the terminal "simulation complete" class. -/
inductive PRResult
  | hit
  | fault (evicted : Option Nat)
  | complete
deriving DecidableEq, Repr

/-- Memory capacity (`frameSize = 3` in the source). -/
def frameSize : Nat := 3

/-- The index computed by the source's
`pages.reduce((min, p, i, arr) => (p.timestamp < arr[min].timestamp ? i : min), 0)`:
running first-strict-minimum scan.  `i` is the index of the head of
the remaining list, `minIdx`/`minTs` the current best index and its
timestamp. -/
def lruVictimAux : List Page → Nat → Nat → Nat → Nat
  | [], _, minIdx, _ => minIdx
  | p :: rest, i, minIdx, minTs =>
    if p.timestamp < minTs then lruVictimAux rest (i + 1) i p.timestamp
    else lruVictimAux rest (i + 1) minIdx minTs

/-- Index of the LRU victim: the reduce starts with accumulator `0`,
and its first iteration (on index 0) never changes it, so the scan
effectively starts at index 1 with best index 0. -/
def lruVictimIdx : List Page → Nat
  | [] => 0
  | p :: rest => lruVictimAux rest 1 0 p.timestamp

/-- The LRU hit update: `pages.map(p => p.id === newPage ? {...p, timestamp: Date.now()} : p)`. -/
def touchLRU (ref clock : Nat) (pages : List Page) : List Page :=
  pages.map fun p => if p.id = ref then { p with timestamp := clock } else p

/-- One step of the page-replacement engine (`handleNext` in the
source), returning the new state and the narration class.  The two
`setTimeout`-staggered `setPages` updates of an eviction are modelled
by their final committed state: FIFO drops slot 0 and appends the new
page at the tail (`[...prev.slice(1), newPage]`); LRU overwrites the
victim's slot in place (`updatedPages[leastRecentIndex] = newPage`). -/
def pageStep (s : PRState) : PRState × PRResult :=
  match s.sequence.get? s.currentStep with
  | none => (s, .complete)
  | some newPage =>
    let isPageFault := !(s.pages.any fun p => p.id == newPage)
    if isPageFault then
      if s.pages.length < frameSize then
        ({ s with pages := s.pages ++ [⟨newPage, s.clock, s.clock⟩],
                  pageFaults := s.pageFaults + 1,
                  currentStep := s.currentStep + 1,
                  clock := s.clock + 1 },
         .fault none)
      else
        match s.algorithm with
        | .FIFO =>
          ({ s with pages := s.pages.tail ++ [⟨newPage, s.clock, s.clock⟩],
                    pageFaults := s.pageFaults + 1,
                    currentStep := s.currentStep + 1,
                    clock := s.clock + 1 },
           .fault (s.pages.head?.map Page.id))
        | .LRU =>
          let i := lruVictimIdx s.pages
          ({ s with pages := s.pages.set i ⟨newPage, s.clock, s.clock⟩,
                    pageFaults := s.pageFaults + 1,
                    currentStep := s.currentStep + 1,
                    clock := s.clock + 1 },
           .fault (some (s.pages.getD i default).id))
    else
      match s.algorithm with
      | .FIFO =>
        ({ s with currentStep := s.currentStep + 1, clock := s.clock + 1 }, .hit)
      | .LRU =>
        ({ s with pages := touchLRU newPage s.clock s.pages,
                  currentStep := s.currentStep + 1,
                  clock := s.clock + 1 },
         .hit)

/-- The `reset` handler: clears pages, cursor and fault counter.  The
clock (real time) keeps its value. -/
def prReset (s : PRState) : PRState :=
  { s with pages := [], currentStep := 0, pageFaults := 0 }

/-- Initial component state for a given algorithm and reference
sequence (the reference sequence of the source is `[1,3,0,3,5,6,3]`). -/
def prInit (a : Alg) (seq : List Nat) : PRState :=
  ⟨[], seq, 0, 0, a, 0⟩

/-- Engine states reachable from an initial empty state by `pageStep`
and `prReset` (the only mutators of the core state). -/
inductive Reachable : PRState → Prop
  | init (a : Alg) (seq : List Nat) (clock : Nat) : Reachable ⟨[], seq, 0, 0, a, clock⟩
  | step {s : PRState} : Reachable s → Reachable (pageStep s).1
  | reset {s : PRState} : Reachable s → Reachable (prReset s)

/-- Iterated stepping (state part only). -/
def prRun (a : Alg) (seq : List Nat) (n : Nat) : PRState :=
  (fun s => (pageStep s).1)^[n] (prInit a seq)

end PageSim

namespace DiskSim

/-- A disk request, as in the source's `Request` interface
(`position`, `isServed`); `arrivalOrder` is ghost instrumentation
recording the index in the initial array and is never read by the
selection code. -/
structure Request where
  position : Nat
  isServed : Bool
  arrivalOrder : Nat
deriving DecidableEq, Repr

/-- The three disk-scheduling policies of the source. -/
inductive DiskAlg
  | FCFS
  | SSTF
  | SCAN
deriving DecidableEq, Repr

/-- Sweep direction for SCAN. -/
inductive Direction
  | up
  | down
deriving DecidableEq, Repr

/-- The `DiskScheduling` component state: requests, head position,
selected algorithm, SCAN direction, accumulated seek time, and the
play flag. -/
structure DiskState where
  requests : List Request
  headPosition : Nat
  algorithm : DiskAlg
  direction : Direction
  totalSeekTime : Nat
  isPlaying : Bool
deriving DecidableEq, Repr

/-- The SSTF reduce:
`filter(unserved).reduce((closest, current) => !closest ? current : (|cur-h| < |closest-h| ? cur : closest), null)`. -/
def sstfReduce (head : Nat) : Option Request → List Request → Option Request
  | acc, [] => acc
  | none, r :: rest => sstfReduce head (some r) rest
  | some c, r :: rest =>
    if Nat.dist r.position head < Nat.dist c.position head then
      sstfReduce head (some r) rest
    else
      sstfReduce head (some c) rest

/-- First element of the list sorted ascending by position, i.e. the
first element attaining the minimal position (the source's
`.sort((a, b) => a.position - b.position)[0]`, a stable sort). -/
def minByPos : List Request → Option Request
  | [] => none
  | r :: rest =>
    match minByPos rest with
    | none => some r
    | some m => if m.position < r.position then some m else some r

/-- First element of the list sorted descending by position, i.e. the
first element attaining the maximal position (the source's
`.sort((a, b) => b.position - a.position)[0]`, a stable sort). -/
def maxByPos : List Request → Option Request
  | [] => none
  | r :: rest =>
    match maxByPos rest with
    | none => some r
    | some m => if r.position < m.position then some m else some r

/-- The source's `getNextRequest`, including the `setDirection` side
effect of the SCAN branch, returned as the second component: the
selected request (if any) and the direction after the call. -/
def getNextRequest (s : DiskState) : Option Request × Direction :=
  match s.algorithm with
  | .FCFS => (s.requests.find? fun r => !r.isServed, s.direction)
  | .SSTF =>
    (sstfReduce s.headPosition none (s.requests.filter fun r => !r.isServed), s.direction)
  | .SCAN =>
    let unserved := s.requests.filter fun r => !r.isServed
    match s.direction with
    | .up =>
      match minByPos (unserved.filter fun r => s.headPosition ≤ r.position) with
      | some r => (some r, .up)
      | none => (maxByPos (unserved.filter fun r => r.position < s.headPosition), .down)
    | .down =>
      match maxByPos (unserved.filter fun r => r.position ≤ s.headPosition) with
      | some r => (some r, .down)
      | none => (minByPos (unserved.filter fun r => s.headPosition < r.position), .up)

/-- Mark the first structural occurrence of `sel` as served.  The
source marks by object identity (`r === nextRequest`); every selection
path returns the first occurrence of the chosen record, so marking the
first structural match is the faithful rendering. -/
def markServed : List Request → Request → List Request
  | [], _ => []
  | r :: rest, sel =>
    if r = sel then { r with isServed := true } :: rest
    else r :: markServed rest sel

/-- The source's `moveHead`: select the next request; if one exists,
add the seek distance, move the head and mark it served; otherwise
stop playing.  The direction returned by `getNextRequest` is committed
in both branches (React commits the `setDirection` call regardless). -/
def moveHead (s : DiskState) : DiskState :=
  match getNextRequest s with
  | (some r, d) =>
    { s with totalSeekTime := s.totalSeekTime + Nat.dist r.position s.headPosition,
             headPosition := r.position,
             requests := markServed s.requests r,
             direction := d }
  | (none, d) => { s with isPlaying := false, direction := d }

/-- Flip of the sweep direction (the `setDirection` calls). -/
def flipDir : Direction → Direction
  | .up => .down
  | .down => .up

/-- The initial request array of the source. -/
def initialRequests : List Request :=
  [⟨98, false, 0⟩, ⟨183, false, 1⟩, ⟨37, false, 2⟩, ⟨122, false, 3⟩,
   ⟨14, false, 4⟩, ⟨124, false, 5⟩, ⟨65, false, 6⟩, ⟨67, false, 7⟩]

/-- Initial component state: head at 50, direction up, zero seek time. -/
def initDisk (a : DiskAlg) : DiskState :=
  ⟨initialRequests, 50, a, .up, 0, false⟩

end DiskSim

open PageSim DiskSim

/-- The reference sequence of the page-replacement component. -/
def refSeq : List Nat := [1, 3, 0, 3, 5, 6, 3]

/-! ## Disk scheduling: per-step and cumulative seek cost -/

/-- One `moveHead` step adds exactly the absolute head displacement to
the seek total, and the new head position is the selected request's
position (unchanged when nothing is selected). -/
theorem moveHead_seek (s : DiskState) :
    (moveHead s).totalSeekTime
      = s.totalSeekTime + Nat.dist (moveHead s).headPosition s.headPosition ∧
    (moveHead s).headPosition
      = ((getNextRequest s).1.map Request.position).getD s.headPosition := by
  rcases h : getNextRequest s with ⟨ro, d⟩
  cases ro with
  | some r => simp [moveHead, h]
  | none => simp [moveHead, h, Nat.dist_self]

/-- C7: after any number `N` of steps, `totalSeekTime` has grown by the
sum over those steps of the absolute difference between the head
position before and after each step; each single step adds exactly
`|selected.position - headPosition|` and moves the head to
`selected.position`.  This holds for every request list and policy
(a step that selects nothing adds a zero displacement). -/
theorem seek_cost_additivity (s : DiskState) (N : Nat) :
    ((moveHead^[N] s).totalSeekTime
      = s.totalSeekTime + ∑ i ∈ Finset.range N,
          Nat.dist (moveHead^[i + 1] s).headPosition (moveHead^[i] s).headPosition) ∧
    (moveHead s).totalSeekTime
      = s.totalSeekTime + Nat.dist (moveHead s).headPosition s.headPosition ∧
    (moveHead s).headPosition
      = ((getNextRequest s).1.map Request.position).getD s.headPosition := by
  refine ⟨?_, (moveHead_seek s).1, (moveHead_seek s).2⟩
  induction N with
  | zero => simp
  | succ n ih =>
    rw [Finset.sum_range_succ, Function.iterate_succ_apply', (moveHead_seek (moveHead^[n] s)).1,
      ih]
    simp [Function.iterate_succ_apply']
    omega

/-! ## Concrete scenarios -/

/-- C5: under SSTF with head 50 on the initial request list, the first
selected request is the one at position 37 (arrival index 2), the head
moves to 37, and the cumulative seek cost after the first step is
13 = |37 - 50|. -/
theorem sstf_first_step_concrete :
    (getNextRequest (initDisk .SSTF)).1 = some ⟨37, false, 2⟩ ∧
    (moveHead (initDisk .SSTF)).headPosition = 37 ∧
    (moveHead (initDisk .SSTF)).totalSeekTime = 13 ∧
    Nat.dist 37 50 = 13 := by decide

/-- C4 counterexample: on FIFO, capacity 3, sequence `[1,3,0,3,5,6,3]`,
the final fault count is 6, not 5: the last step (referencing 3, which
was evicted by 6 at the previous step) is also a fault, evicting 0. -/
theorem fifo_trace_counterexample :
    (prRun .FIFO refSeq 7).pageFaults = 6 ∧
    (prRun .FIFO refSeq 7).pageFaults ≠ 5 ∧
    (pageStep (prRun .FIFO refSeq 6)).2 = .fault (some 0) := by decide

/-- C4 amended: on FIFO, capacity 3, sequence `[1,3,0,3,5,6,3]`, every
step faults except the fourth (the first re-reference of 3, a hit);
the running fault counts are 1,2,3,3,4,5,6 and the final count is 6
(3 is evicted by 6 before its last re-reference, which therefore
faults again). -/
theorem fifo_trace_amended :
    ((List.range 8).map fun n => (prRun .FIFO refSeq n).pageFaults)
      = [0, 1, 2, 3, 3, 4, 5, 6] ∧
    ((List.range 7).map fun n => (pageStep (prRun .FIFO refSeq n)).2)
      = [.fault none, .fault none, .fault none, .hit,
         .fault (some 1), .fault (some 3), .fault (some 0)] ∧
    (prRun .FIFO refSeq 7).pageFaults = 6 := by decide

/-! ## SSTF selection -/

/-- The SSTF reduce started on accumulator `c` scans `L` left to right
keeping the first strict minimum: on a list with strictly increasing
arrival orders it returns a member of `c :: L` whose distance to the
head is minimal, and which has the smallest arrival order among the
minimizers. -/
theorem sstfReduce_spec (head : Nat) :
    ∀ (L : List Request) (c : Request),
      List.Pairwise (fun a b => a.arrivalOrder < b.arrivalOrder) (c :: L) →
      ∃ m, sstfReduce head (some c) L = some m ∧ m ∈ c :: L ∧
        (∀ r ∈ c :: L, Nat.dist m.position head ≤ Nat.dist r.position head) ∧
        ∀ r ∈ c :: L, Nat.dist r.position head = Nat.dist m.position head →
          m.arrivalOrder ≤ r.arrivalOrder := by
  intro L
  induction L with
  | nil =>
    intro c _
    refine ⟨c, rfl, by simp, ?_, ?_⟩
    · intro r hr
      rw [List.mem_singleton] at hr
      subst hr
      exact le_refl _
    · intro r hr _
      rw [List.mem_singleton] at hr
      subst hr
      exact le_refl _
  | cons a L ih =>
    intro c hp
    rw [List.pairwise_cons] at hp
    obtain ⟨hc, hpa⟩ := hp
    by_cases hd : Nat.dist a.position head < Nat.dist c.position head
    · obtain ⟨m, hm, hmem, hmin, htie⟩ := ih a hpa
      refine ⟨m, ?_, ?_, ?_, ?_⟩
      · simpa [sstfReduce, hd] using hm
      · exact List.mem_cons_of_mem c hmem
      · intro r hr
        rcases List.mem_cons.1 hr with hr | hr
        · subst hr
          exact le_of_lt (lt_of_le_of_lt (hmin a (List.mem_cons_self a L)) hd)
        · exact hmin r hr
      · intro r hr hre
        rcases List.mem_cons.1 hr with hr | hr
        · subst hr
          exact absurd hre
            (Nat.ne_of_gt (lt_of_le_of_lt (hmin a (List.mem_cons_self a L)) hd))
        · exact htie r hr hre
    · have hca : Nat.dist c.position head ≤ Nat.dist a.position head := le_of_not_lt hd
      have hpc : List.Pairwise (fun a b => a.arrivalOrder < b.arrivalOrder) (c :: L) := by
        rw [List.pairwise_cons]
        exact ⟨fun b hb => hc b (List.mem_cons_of_mem a hb), hpa.of_cons⟩
      obtain ⟨m, hm, hmem, hmin, htie⟩ := ih c hpc
      have hmc : Nat.dist m.position head ≤ Nat.dist c.position head :=
        hmin c (List.mem_cons_self c L)
      refine ⟨m, ?_, ?_, ?_, ?_⟩
      · simpa [sstfReduce, hd] using hm
      · rcases List.mem_cons.1 hmem with hm' | hm'
        · exact hm' ▸ List.mem_cons_self c (a :: L)
        · exact List.mem_cons_of_mem c (List.mem_cons_of_mem a hm')
      · intro r hr
        rcases List.mem_cons.1 hr with hr | hr
        · subst hr
          exact hmin r (List.mem_cons_self r L)
        · rcases List.mem_cons.1 hr with hr | hr
          · subst hr
            exact le_trans hmc hca
          · exact hmin r (List.mem_cons_of_mem c hr)
      · intro r hr hre
        rcases List.mem_cons.1 hr with hr | hr
        · subst hr
          exact htie r (List.mem_cons_self r L) hre
        · rcases List.mem_cons.1 hr with hr | hr
          · subst hr
            have hcm : Nat.dist c.position head = Nat.dist m.position head :=
              le_antisymm (hre ▸ hca) hmc
            have h1 : m.arrivalOrder ≤ c.arrivalOrder :=
              htie c (List.mem_cons_self c L) hcm
            exact le_of_lt (lt_of_le_of_lt h1 (hc r (List.mem_cons_self r L)))
          · exact htie r (List.mem_cons_of_mem c hr) hre

/-- C1: for every head position, whenever at least one request is
unserved, the request selected by SSTF is unserved, its distance
`|position - headPosition|` is at most the distance of every other
unserved request, and among unserved requests at that minimal distance
it has the smallest `arrivalOrder` (the requests being listed in
arrival order). -/
theorem sstf_selects_closest (s : DiskState) (halg : s.algorithm = .SSTF)
    (hord : List.Pairwise (fun a b => a.arrivalOrder < b.arrivalOrder) s.requests)
    (r0 : Request) (hr0 : r0 ∈ s.requests) (hr0u : r0.isServed = false) :
    ∃ m, (getNextRequest s).1 = some m ∧ m ∈ s.requests ∧ m.isServed = false ∧
      (∀ r ∈ s.requests, r.isServed = false →
        Nat.dist m.position s.headPosition ≤ Nat.dist r.position s.headPosition) ∧
      ∀ r ∈ s.requests, r.isServed = false →
        Nat.dist r.position s.headPosition = Nat.dist m.position s.headPosition →
        m.arrivalOrder ≤ r.arrivalOrder := by
  have hget : (getNextRequest s).1
      = sstfReduce s.headPosition none (s.requests.filter fun r => !r.isServed) := by
    simp [getNextRequest, halg]
  have hr0F : r0 ∈ (s.requests.filter fun r => !r.isServed) :=
    List.mem_filter.2 ⟨hr0, by simp [hr0u]⟩
  cases hF : (s.requests.filter fun r => !r.isServed) with
  | nil =>
    rw [hF] at hr0F
    cases hr0F
  | cons c L =>
    have hpF : List.Pairwise (fun a b => a.arrivalOrder < b.arrivalOrder) (c :: L) := by
      rw [← hF]
      exact hord.sublist (List.filter_sublist _)
    obtain ⟨m, hm, hmem, hmin, htie⟩ := sstfReduce_spec s.headPosition L c hpF
    have hmemF : m ∈ (s.requests.filter fun r => !r.isServed) := hF ▸ hmem
    obtain ⟨hmreq, hmuns⟩ := List.mem_filter.1 hmemF
    refine ⟨m, ?_, hmreq, by simpa using hmuns, ?_, ?_⟩
    · rw [hget, hF]
      simpa [sstfReduce] using hm
    · intro r hr hru
      exact hmin r (hF ▸ List.mem_filter.2 ⟨hr, by simp [hru]⟩)
    · intro r hr hru hre
      exact htie r (hF ▸ List.mem_filter.2 ⟨hr, by simp [hru]⟩) hre

/-- Closed witness for `sstf_selects_closest`: the initial request list
with head 50; the selected request is the one at position 37. -/
theorem sstf_selects_closest_witness :
    ∃ m, (getNextRequest (initDisk .SSTF)).1 = some m ∧ m ∈ (initDisk .SSTF).requests ∧
      m.isServed = false ∧
      (∀ r ∈ (initDisk .SSTF).requests, r.isServed = false →
        Nat.dist m.position (initDisk .SSTF).headPosition
          ≤ Nat.dist r.position (initDisk .SSTF).headPosition) ∧
      ∀ r ∈ (initDisk .SSTF).requests, r.isServed = false →
        Nat.dist r.position (initDisk .SSTF).headPosition
          = Nat.dist m.position (initDisk .SSTF).headPosition →
        m.arrivalOrder ≤ r.arrivalOrder :=
  sstf_selects_closest (initDisk .SSTF) rfl (by decide) ⟨98, false, 0⟩ (by decide) rfl

/-! ## SCAN selection -/

/-- On a cons cell `minByPos` returns a member of minimal position
(the head wins ties against the tail's minimum, matching the stable
ascending sort). -/
theorem minByPos_cons_spec :
    ∀ (L : List Request) (a : Request),
      ∃ m, minByPos (a :: L) = some m ∧ m ∈ a :: L ∧
        ∀ r ∈ a :: L, m.position ≤ r.position := by
  intro L
  induction L with
  | nil =>
    intro a
    refine ⟨a, rfl, List.mem_cons_self a [], ?_⟩
    intro r hr
    rw [List.mem_singleton] at hr
    subst hr
    exact le_refl _
  | cons b L ih =>
    intro a
    obtain ⟨m, hm, hmem, hmin⟩ := ih b
    have hstep : minByPos (a :: b :: L)
        = if m.position < a.position then some m else some a := by
      show (match minByPos (b :: L) with
            | none => some a
            | some mm => if mm.position < a.position then some mm else some a)
          = if m.position < a.position then some m else some a
      rw [hm]
    by_cases hp : m.position < a.position
    · refine ⟨m, by rw [hstep, if_pos hp], List.mem_cons_of_mem a hmem, ?_⟩
      intro r hr
      rcases List.mem_cons.1 hr with hr | hr
      · subst hr
        exact le_of_lt hp
      · exact hmin r hr
    · refine ⟨a, by rw [hstep, if_neg hp], List.mem_cons_self a (b :: L), ?_⟩
      intro r hr
      rcases List.mem_cons.1 hr with hr | hr
      · subst hr
        exact le_refl _
      · exact le_trans (le_of_not_lt hp) (hmin r hr)

/-- On a cons cell `maxByPos` returns a member of maximal position
(the head wins ties against the tail's maximum, matching the stable
descending sort). -/
theorem maxByPos_cons_spec :
    ∀ (L : List Request) (a : Request),
      ∃ m, maxByPos (a :: L) = some m ∧ m ∈ a :: L ∧
        ∀ r ∈ a :: L, r.position ≤ m.position := by
  intro L
  induction L with
  | nil =>
    intro a
    refine ⟨a, rfl, List.mem_cons_self a [], ?_⟩
    intro r hr
    rw [List.mem_singleton] at hr
    subst hr
    exact le_refl _
  | cons b L ih =>
    intro a
    obtain ⟨m, hm, hmem, hmax⟩ := ih b
    have hstep : maxByPos (a :: b :: L)
        = if a.position < m.position then some m else some a := by
      show (match maxByPos (b :: L) with
            | none => some a
            | some mm => if a.position < mm.position then some mm else some a)
          = if a.position < m.position then some m else some a
      rw [hm]
    by_cases hp : a.position < m.position
    · refine ⟨m, by rw [hstep, if_pos hp], List.mem_cons_of_mem a hmem, ?_⟩
      intro r hr
      rcases List.mem_cons.1 hr with hr | hr
      · subst hr
        exact le_of_lt hp
      · exact hmax r hr
    · refine ⟨a, by rw [hstep, if_neg hp], List.mem_cons_self a (b :: L), ?_⟩
      intro r hr
      rcases List.mem_cons.1 hr with hr | hr
      · subst hr
        exact le_refl _
      · exact le_trans (hmax r hr) (le_of_not_lt hp)

/-- For a non-empty list `minByPos` yields a member with minimal position. -/
theorem minByPos_spec (L : List Request) (h : L ≠ []) :
    ∃ m, minByPos L = some m ∧ m ∈ L ∧ ∀ r ∈ L, m.position ≤ r.position := by
  cases L with
  | nil => exact absurd rfl h
  | cons a T => exact minByPos_cons_spec T a

/-- For a non-empty list `maxByPos` yields a member with maximal position. -/
theorem maxByPos_spec (L : List Request) (h : L ≠ []) :
    ∃ m, maxByPos L = some m ∧ m ∈ L ∧ ∀ r ∈ L, r.position ≤ m.position := by
  cases L with
  | nil => exact absurd rfl h
  | cons a T => exact maxByPos_cons_spec T a

/-- C2: under SCAN with direction up, if some unserved request sits at
or above the head, the selected one is the unserved request with the
smallest position `≥ headPosition` and the direction stays up;
otherwise, if some unserved request sits strictly below the head, the
direction is flipped to down (and committed by `moveHead`, hence
visible to subsequent calls) and the unserved request with the largest
position `< headPosition` is selected.  On the concrete initial data
(head 50, direction up), the first selected request is at position 65,
not 37. -/
theorem scan_up_selection (s : DiskState) (halg : s.algorithm = .SCAN)
    (hdir : s.direction = .up) :
    ((∃ r ∈ s.requests, r.isServed = false ∧ s.headPosition ≤ r.position) →
      ∃ m, getNextRequest s = (some m, .up) ∧ m ∈ s.requests ∧ m.isServed = false ∧
        s.headPosition ≤ m.position ∧
        ∀ r ∈ s.requests, r.isServed = false → s.headPosition ≤ r.position →
          m.position ≤ r.position) ∧
    ((¬ ∃ r ∈ s.requests, r.isServed = false ∧ s.headPosition ≤ r.position) →
     (∃ r ∈ s.requests, r.isServed = false ∧ r.position < s.headPosition) →
      ∃ m, getNextRequest s = (some m, .down) ∧ (moveHead s).direction = .down ∧
        m ∈ s.requests ∧ m.isServed = false ∧ m.position < s.headPosition ∧
        ∀ r ∈ s.requests, r.isServed = false → r.position < s.headPosition →
          r.position ≤ m.position) ∧
    (getNextRequest (initDisk .SCAN)).1.map Request.position = some 65 ∧
    (getNextRequest (initDisk .SCAN)).1.map Request.position ≠ some 37 := by
  have hget : getNextRequest s
      = (match minByPos (((s.requests.filter fun r => !r.isServed).filter
            fun r => s.headPosition ≤ r.position)) with
         | some r => (some r, Direction.up)
         | none => (maxByPos ((s.requests.filter fun r => !r.isServed).filter
              fun r => r.position < s.headPosition), Direction.down)) := by
    simp [getNextRequest, halg, hdir]
  have hmemUF : ∀ r : Request, r ∈ s.requests → r.isServed = false →
      s.headPosition ≤ r.position →
      r ∈ ((s.requests.filter fun r => !r.isServed).filter
        fun r => s.headPosition ≤ r.position) := by
    intro r hr hru hrp
    exact List.mem_filter.2 ⟨List.mem_filter.2 ⟨hr, by simp [hru]⟩, by simp [hrp]⟩
  have hmemDF : ∀ r : Request, r ∈ s.requests → r.isServed = false →
      r.position < s.headPosition →
      r ∈ ((s.requests.filter fun r => !r.isServed).filter
        fun r => r.position < s.headPosition) := by
    intro r hr hru hrp
    exact List.mem_filter.2 ⟨List.mem_filter.2 ⟨hr, by simp [hru]⟩, by simp [hrp]⟩
  refine ⟨?_, ?_, by decide, by decide⟩
  · rintro ⟨r0, hr0, hr0u, hr0p⟩
    obtain ⟨m, hm, hmem, hmin⟩ := minByPos_spec _
      (List.ne_nil_of_mem (hmemUF r0 hr0 hr0u hr0p))
    obtain ⟨hmU, hmP⟩ := List.mem_filter.1 hmem
    obtain ⟨hmreq, hmuns⟩ := List.mem_filter.1 hmU
    refine ⟨m, ?_, hmreq, by simpa using hmuns, by simpa using hmP, ?_⟩
    · rw [hget, hm]
    · intro r hr hru hrp
      exact hmin r (hmemUF r hr hru hrp)
  · intro hnone
    rintro ⟨r0, hr0, hr0u, hr0p⟩
    have hUF : ((s.requests.filter fun r => !r.isServed).filter
        fun r => s.headPosition ≤ r.position) = [] := by
      rw [List.eq_nil_iff_forall_not_mem]
      intro r hr
      obtain ⟨hrU, hrP⟩ := List.mem_filter.1 hr
      obtain ⟨hrreq, hruns⟩ := List.mem_filter.1 hrU
      exact hnone ⟨r, hrreq, by simpa using hruns, by simpa using hrP⟩
    obtain ⟨m, hm, hmem, hmax⟩ := maxByPos_spec _
      (List.ne_nil_of_mem (hmemDF r0 hr0 hr0u hr0p))
    obtain ⟨hmD, hmP⟩ := List.mem_filter.1 hmem
    obtain ⟨hmreq, hmuns⟩ := List.mem_filter.1 hmD
    have hsel : getNextRequest s = (some m, .down) := by
      rw [hget, hUF]
      simp only [minByPos]
      rw [hm]
    refine ⟨m, hsel, ?_, hmreq, by simpa using hmuns, by simpa using hmP, ?_⟩
    · simp [moveHead, hsel]
    · intro r hr hru hrp
      exact hmax r (hmemDF r hr hru hrp)

/-- Closed witness for `scan_up_selection`: the initial component
state under SCAN. -/
theorem scan_up_selection_witness :
    ((∃ r ∈ (initDisk .SCAN).requests, r.isServed = false ∧
        (initDisk .SCAN).headPosition ≤ r.position) →
      ∃ m, getNextRequest (initDisk .SCAN) = (some m, .up) ∧
        m ∈ (initDisk .SCAN).requests ∧ m.isServed = false ∧
        (initDisk .SCAN).headPosition ≤ m.position ∧
        ∀ r ∈ (initDisk .SCAN).requests, r.isServed = false →
          (initDisk .SCAN).headPosition ≤ r.position → m.position ≤ r.position) ∧
    ((¬ ∃ r ∈ (initDisk .SCAN).requests, r.isServed = false ∧
        (initDisk .SCAN).headPosition ≤ r.position) →
     (∃ r ∈ (initDisk .SCAN).requests, r.isServed = false ∧
        r.position < (initDisk .SCAN).headPosition) →
      ∃ m, getNextRequest (initDisk .SCAN) = (some m, .down) ∧
        (moveHead (initDisk .SCAN)).direction = .down ∧
        m ∈ (initDisk .SCAN).requests ∧ m.isServed = false ∧
        m.position < (initDisk .SCAN).headPosition ∧
        ∀ r ∈ (initDisk .SCAN).requests, r.isServed = false →
          r.position < (initDisk .SCAN).headPosition → r.position ≤ m.position) ∧
    (getNextRequest (initDisk .SCAN)).1.map Request.position = some 65 ∧
    (getNextRequest (initDisk .SCAN)).1.map Request.position ≠ some 37 :=
  scan_up_selection (initDisk .SCAN) rfl rfl

/-! ## Terminal behaviour -/

/-- When every request is served, the unserved filter is empty. -/
theorem filter_unserved_nil (l : List Request) (hall : ∀ r ∈ l, r.isServed = true) :
    (l.filter fun r => !r.isServed) = [] := by
  rw [List.filter_eq_nil_iff]
  intro r hr
  simp [hall r hr]

/-- When every request is served, no policy selects a request; under
SCAN the returned direction is flipped, under FCFS and SSTF it is
unchanged. -/
theorem getNextRequest_all_served (s : DiskState)
    (hall : ∀ r ∈ s.requests, r.isServed = true) :
    (getNextRequest s).1 = none ∧
    (getNextRequest s).2 = (if s.algorithm = .SCAN then flipDir s.direction else s.direction) := by
  have hf : (s.requests.filter fun r => !r.isServed) = [] := filter_unserved_nil _ hall
  cases halg : s.algorithm with
  | FCFS =>
    have : s.requests.find? (fun r => !r.isServed) = none := by
      rw [List.find?_eq_none]
      intro r hr
      simp [hall r hr]
    simp [getNextRequest, halg, this]
  | SSTF => simp [getNextRequest, halg, hf, sstfReduce]
  | SCAN =>
    cases hd : s.direction with
    | up => simp [getNextRequest, halg, hd, hf, minByPos, maxByPos, flipDir]
    | down => simp [getNextRequest, halg, hd, hf, minByPos, maxByPos, flipDir]

/-- When every request is served, `moveHead` only clears the play flag
and (under SCAN) flips the direction. -/
theorem moveHead_all_served (s : DiskState)
    (hall : ∀ r ∈ s.requests, r.isServed = true) :
    moveHead s
      = { s with isPlaying := false,
                 direction := if s.algorithm = .SCAN then flipDir s.direction
                              else s.direction } := by
  obtain ⟨h1, h2⟩ := getNextRequest_all_served s hall
  rcases h : getNextRequest s with ⟨ro, d⟩
  rw [h] at h1 h2
  subst h1
  simp at h2
  simp [moveHead, h, h2]

/-- C6: once the input is consumed, stepping is idempotent.  For page
replacement, when the cursor is at or past the end of the reference
sequence, `pageStep` returns the state unchanged with the terminal
result, so iterating it is the identity.  For disk scheduling, when no
request is unserved, every further `moveHead` leaves the requests, the
head position and the seek total unchanged and keeps selecting
nothing. -/
theorem terminal_step_idempotent (p : PRState) (hp : p.sequence.length ≤ p.currentStep)
    (d : DiskState) (hall : ∀ r ∈ d.requests, r.isServed = true) :
    pageStep p = (p, .complete) ∧
    (∀ n : Nat, (fun s => (pageStep s).1)^[n] p = p) ∧
    ∀ n : Nat,
      (moveHead^[n] d).requests = d.requests ∧
      (moveHead^[n] d).headPosition = d.headPosition ∧
      (moveHead^[n] d).totalSeekTime = d.totalSeekTime ∧
      (getNextRequest (moveHead^[n] d)).1 = none := by
  have hterm : pageStep p = (p, .complete) := by
    have hg : p.sequence[p.currentStep]? = none := List.getElem?_eq_none hp
    simp [pageStep, hg]
  refine ⟨hterm, ?_, ?_⟩
  · intro n
    induction n with
    | zero => rfl
    | succ k ih => rw [Function.iterate_succ_apply', ih, hterm]
  · intro n
    induction n with
    | zero => exact ⟨rfl, rfl, rfl, (getNextRequest_all_served d hall).1⟩
    | succ k ih =>
      obtain ⟨hreq, hhead, hcost, _⟩ := ih
      have hallk : ∀ r ∈ (moveHead^[k] d).requests, r.isServed = true := by
        rw [hreq]
        exact hall
      have hmk := moveHead_all_served (moveHead^[k] d) hallk
      rw [Function.iterate_succ_apply', hmk]
      refine ⟨hreq, hhead, hcost, ?_⟩
      exact (getNextRequest_all_served _ (by simpa using hallk)).1

/-- Closed witness for `terminal_step_idempotent`: the page engine past
the end of the reference sequence and the disk engine with every
request served. -/
theorem terminal_step_idempotent_witness :
    pageStep ⟨[⟨5, 4, 4⟩, ⟨6, 5, 5⟩, ⟨3, 6, 6⟩], refSeq, 7, 6, .FIFO, 7⟩
      = (⟨[⟨5, 4, 4⟩, ⟨6, 5, 5⟩, ⟨3, 6, 6⟩], refSeq, 7, 6, .FIFO, 7⟩, .complete) ∧
    (∀ n : Nat, (fun s => (pageStep s).1)^[n]
        ⟨[⟨5, 4, 4⟩, ⟨6, 5, 5⟩, ⟨3, 6, 6⟩], refSeq, 7, 6, .FIFO, 7⟩
      = ⟨[⟨5, 4, 4⟩, ⟨6, 5, 5⟩, ⟨3, 6, 6⟩], refSeq, 7, 6, .FIFO, 7⟩) ∧
    ∀ n : Nat,
      (moveHead^[n] ⟨[⟨98, true, 0⟩, ⟨37, true, 1⟩], 37, .SSTF, .up, 61, false⟩).requests
        = [⟨98, true, 0⟩, ⟨37, true, 1⟩] ∧
      (moveHead^[n] ⟨[⟨98, true, 0⟩, ⟨37, true, 1⟩], 37, .SSTF, .up, 61, false⟩).headPosition
        = 37 ∧
      (moveHead^[n] ⟨[⟨98, true, 0⟩, ⟨37, true, 1⟩], 37, .SSTF, .up, 61, false⟩).totalSeekTime
        = 61 ∧
      (getNextRequest (moveHead^[n]
          ⟨[⟨98, true, 0⟩, ⟨37, true, 1⟩], 37, .SSTF, .up, 61, false⟩)).1 = none :=
  terminal_step_idempotent _ (by decide) _ (by decide)

/-- C10: under SCAN with every request served, each further `moveHead`
call leaves the requests, head position and seek total unchanged but
still flips the sweep direction — the flip inside `getNextRequest`
fires even though the opposite-direction search also finds nothing —
so the direction toggles on every call (two calls restore it). -/
theorem scan_exhausted_toggles_direction (s : DiskState)
    (halg : s.algorithm = .SCAN)
    (hall : ∀ r ∈ s.requests, r.isServed = true) :
    moveHead s = { s with direction := flipDir s.direction, isPlaying := false } ∧
    (moveHead s).direction ≠ s.direction ∧
    (moveHead (moveHead s)).direction = s.direction := by
  have h1 : moveHead s = { s with direction := flipDir s.direction, isPlaying := false } := by
    rw [moveHead_all_served s hall]
    simp [halg]
  refine ⟨h1, ?_, ?_⟩
  · rw [h1]
    cases s.direction <;> simp [flipDir]
  · have h2 : moveHead (moveHead s)
        = { moveHead s with direction := flipDir (moveHead s).direction,
                            isPlaying := false } := by
      rw [moveHead_all_served (moveHead s) (by rw [h1]; exact hall)]
      rw [h1]
      simp [halg]
    rw [h2, h1]
    cases s.direction <;> simp [flipDir]

/-- Closed witness for `scan_exhausted_toggles_direction`: the initial
request list with every request marked served. -/
theorem scan_exhausted_toggles_direction_witness :
    moveHead ⟨initialRequests.map (fun r => { r with isServed := true }), 50, .SCAN, .up, 0, false⟩
      = { requests := initialRequests.map (fun r => { r with isServed := true }),
          headPosition := 50, algorithm := .SCAN, direction := .down,
          totalSeekTime := 0, isPlaying := false } ∧
    (moveHead (moveHead ⟨initialRequests.map (fun r => { r with isServed := true }),
        50, .SCAN, .up, 0, false⟩)).direction = .up :=
  ⟨(scan_exhausted_toggles_direction _ rfl (by decide)).1,
   (scan_exhausted_toggles_direction _ rfl (by decide)).2.2⟩

/-! ## Page replacement: step reduction lemmas -/

/-- Reduction of `pageStep` on a hit under FIFO. -/
theorem pageStep_hit_fifo (s : PRState) (ref : Nat)
    (hg : s.sequence[s.currentStep]? = some ref)
    (hb : ¬ ∀ p ∈ s.pages, ¬ p.id = ref)
    (halg : s.algorithm = .FIFO) :
    pageStep s = ({ s with currentStep := s.currentStep + 1, clock := s.clock + 1 }, .hit) := by
  simp [pageStep, hg, hb, halg]

/-- Reduction of `pageStep` on a hit under LRU. -/
theorem pageStep_hit_lru (s : PRState) (ref : Nat)
    (hg : s.sequence[s.currentStep]? = some ref)
    (hb : ¬ ∀ p ∈ s.pages, ¬ p.id = ref)
    (halg : s.algorithm = .LRU) :
    pageStep s = ({ s with pages := touchLRU ref s.clock s.pages,
                           currentStep := s.currentStep + 1,
                           clock := s.clock + 1 }, .hit) := by
  simp [pageStep, hg, hb, halg]

/-- Reduction of `pageStep` on a fault with free capacity. -/
theorem pageStep_fault_append (s : PRState) (ref : Nat)
    (hg : s.sequence[s.currentStep]? = some ref)
    (hb : ∀ p ∈ s.pages, ¬ p.id = ref)
    (hlen : s.pages.length < frameSize) :
    pageStep s = ({ s with pages := s.pages ++ [⟨ref, s.clock, s.clock⟩],
                           pageFaults := s.pageFaults + 1,
                           currentStep := s.currentStep + 1,
                           clock := s.clock + 1 }, .fault none) := by
  simp [pageStep, hg, hb, hlen]
  intro x hx hid
  exact absurd hid (hb x hx)

/-- Reduction of `pageStep` on a fault at full capacity under FIFO. -/
theorem pageStep_fault_fifo (s : PRState) (ref : Nat)
    (hg : s.sequence[s.currentStep]? = some ref)
    (hb : ∀ p ∈ s.pages, ¬ p.id = ref)
    (hlen : ¬ s.pages.length < frameSize)
    (halg : s.algorithm = .FIFO) :
    pageStep s = ({ s with pages := s.pages.tail ++ [⟨ref, s.clock, s.clock⟩],
                           pageFaults := s.pageFaults + 1,
                           currentStep := s.currentStep + 1,
                           clock := s.clock + 1 },
                  .fault (s.pages.head?.map Page.id)) := by
  simp [pageStep, hg, hb, hlen, halg]
  intro x hx hid
  exact absurd hid (hb x hx)

/-- Reduction of `pageStep` on a fault at full capacity under LRU. -/
theorem pageStep_fault_lru (s : PRState) (ref : Nat)
    (hg : s.sequence[s.currentStep]? = some ref)
    (hb : ∀ p ∈ s.pages, ¬ p.id = ref)
    (hlen : ¬ s.pages.length < frameSize)
    (halg : s.algorithm = .LRU) :
    pageStep s = ({ s with pages := s.pages.set (lruVictimIdx s.pages) ⟨ref, s.clock, s.clock⟩,
                           pageFaults := s.pageFaults + 1,
                           currentStep := s.currentStep + 1,
                           clock := s.clock + 1 },
                  .fault (some (s.pages.getD (lruVictimIdx s.pages) default).id)) := by
  simp [pageStep, hg, hb, hlen, halg]
  intro x hx hid
  exact absurd hid (hb x hx)

/-! ## LRU victim selection -/

/-- The first-strict-minimum scan either keeps the incoming best index
(when no later timestamp beats `minTs`) or lands on the first position
of `L` whose timestamp is strictly below `minTs` and minimal in `L`. -/
theorem lruVictimAux_spec :
    ∀ (L : List Page) (i minIdx minTs : Nat),
      (lruVictimAux L i minIdx minTs = minIdx ∧ ∀ p ∈ L, minTs ≤ p.timestamp) ∨
      (∃ j, ∃ hj : j < L.length, lruVictimAux L i minIdx minTs = i + j ∧
        (L.get ⟨j, hj⟩).timestamp < minTs ∧
        ∀ p ∈ L, (L.get ⟨j, hj⟩).timestamp ≤ p.timestamp) := by
  intro L
  induction L with
  | nil =>
    intro i minIdx minTs
    left
    exact ⟨rfl, by simp⟩
  | cons p rest ih =>
    intro i minIdx minTs
    by_cases hp : p.timestamp < minTs
    · have hred : lruVictimAux (p :: rest) i minIdx minTs
          = lruVictimAux rest (i + 1) i p.timestamp := by
        simp [lruVictimAux, hp]
      rcases ih (i + 1) i p.timestamp with ⟨h1, h2⟩ | ⟨j, hj, h1, h2, h3⟩
      · right
        refine ⟨0, by simp, ?_, by simpa using hp, ?_⟩
        · rw [hred, h1]
          omega
        · intro q hq
          rcases List.mem_cons.1 hq with hq | hq
          · subst hq
            exact le_refl _
          · exact h2 q hq
      · right
        refine ⟨j + 1, by simpa using Nat.succ_lt_succ hj, ?_, ?_, ?_⟩
        · rw [hred, h1]
          omega
        · exact lt_trans h2 hp
        · intro q hq
          rcases List.mem_cons.1 hq with hq | hq
          · subst hq
            exact le_of_lt h2
          · exact h3 q hq
    · have hred : lruVictimAux (p :: rest) i minIdx minTs
          = lruVictimAux rest (i + 1) minIdx minTs := by
        simp [lruVictimAux, hp]
      rcases ih (i + 1) minIdx minTs with ⟨h1, h2⟩ | ⟨j, hj, h1, h2, h3⟩
      · left
        refine ⟨by rw [hred, h1], ?_⟩
        intro q hq
        rcases List.mem_cons.1 hq with hq | hq
        · subst hq
          exact le_of_not_lt hp
        · exact h2 q hq
      · right
        refine ⟨j + 1, by simpa using Nat.succ_lt_succ hj, ?_, h2, ?_⟩
        · rw [hred, h1]
          omega
        · intro q hq
          rcases List.mem_cons.1 hq with hq | hq
          · subst hq
            exact le_trans (le_of_lt h2) (le_of_not_lt hp)
          · exact h3 q hq

/-- The LRU victim index is in range and points at a page whose
timestamp is minimal among the resident pages. -/
theorem lruVictimIdx_spec (L : List Page) (hne : L ≠ []) :
    ∃ hlt : lruVictimIdx L < L.length,
      ∀ p ∈ L, (L.get ⟨lruVictimIdx L, hlt⟩).timestamp ≤ p.timestamp := by
  cases L with
  | nil => exact absurd rfl hne
  | cons p rest =>
    have hdef : lruVictimIdx (p :: rest) = lruVictimAux rest 1 0 p.timestamp := rfl
    rcases lruVictimAux_spec rest 1 0 p.timestamp with ⟨h1, h2⟩ | ⟨j, hj, h1, h2, h3⟩
    · have hidx : lruVictimIdx (p :: rest) = 0 := by rw [hdef, h1]
      refine ⟨by rw [hidx]; simp, ?_⟩
      intro q hq
      rcases List.mem_cons.1 hq with hq | hq
      · subst hq
        simp [hidx]
      · simp only [hidx]
        exact le_trans (by simp) (h2 q hq)
    · have hidx : lruVictimIdx (p :: rest) = j + 1 := by rw [hdef, h1]; omega
      have hlt : lruVictimIdx (p :: rest) < (p :: rest).length := by
        rw [hidx]
        simpa using Nat.succ_lt_succ hj
      refine ⟨hlt, ?_⟩
      have hget : (p :: rest).get ⟨lruVictimIdx (p :: rest), hlt⟩ = rest.get ⟨j, hj⟩ := by
        have : (p :: rest).get ⟨j + 1, by simpa using Nat.succ_lt_succ hj⟩ = rest.get ⟨j, hj⟩ := rfl
        rw [← this]
        congr 1
        exact Fin.ext hidx
      rw [hget]
      intro q hq
      rcases List.mem_cons.1 hq with hq | hq
      · subst hq
        exact le_of_lt h2
      · exact h3 q hq

/-! ## Page replacement: resident-set invariant -/

/-- The hit update `touchLRU` does not change the ids of the resident pages. -/
theorem touchLRU_map_id (ref clock : Nat) (l : List Page) :
    (touchLRU ref clock l).map Page.id = l.map Page.id := by
  unfold touchLRU
  rw [List.map_map]
  apply List.map_congr_left
  intro p _
  by_cases hp : p.id = ref <;> simp [hp]

/-- The hit update `touchLRU` does not change the number of resident pages. -/
theorem touchLRU_length (ref clock : Nat) (l : List Page) :
    (touchLRU ref clock l).length = l.length := by
  unfold touchLRU
  exact List.length_map _ _

/-- Every page produced by `touchLRU` comes from a unique source page. -/
theorem touchLRU_mem (ref clock : Nat) (l : List Page) (q : Page)
    (hq : q ∈ touchLRU ref clock l) :
    ∃ p ∈ l, q = if p.id = ref then { p with timestamp := clock } else p := by
  unfold touchLRU at hq
  obtain ⟨p, hp, hpq⟩ := List.mem_map.1 hq
  exact ⟨p, hp, hpq.symm⟩

/-- The hit update `touchLRU` is the identity when no resident page carries the id. -/
theorem touchLRU_eq_self (ref clock : Nat) (l : List Page)
    (h : ∀ p ∈ l, p.id ≠ ref) :
    touchLRU ref clock l = l := by
  unfold touchLRU
  have hcongr : ∀ p ∈ l, (if p.id = ref then { p with timestamp := clock } else p) = id p := by
    intro p hp
    simp [h p hp]
  rw [List.map_congr_left hcongr, List.map_id]

/-- The hit update `touchLRU` preserves distinctness of timestamps when the resident
ids are distinct and every resident timestamp lies below the clock. -/
theorem touchLRU_ts_nodup (ref clock : Nat) :
    ∀ (l : List Page), (l.map Page.id).Nodup → (l.map Page.timestamp).Nodup →
      (∀ p ∈ l, p.timestamp < clock) →
      ((touchLRU ref clock l).map Page.timestamp).Nodup := by
  intro l
  induction l with
  | nil =>
    intro _ _ _
    simp [touchLRU]
  | cons p rest ih =>
    intro hid hts hlt
    rw [List.map_cons, List.nodup_cons] at hid hts
    obtain ⟨hid1, hid2⟩ := hid
    obtain ⟨hts1, hts2⟩ := hts
    have hlt2 : ∀ q ∈ rest, q.timestamp < clock :=
      fun q hq => hlt q (List.mem_cons_of_mem p hq)
    have hcons : touchLRU ref clock (p :: rest)
        = (if p.id = ref then { p with timestamp := clock } else p)
            :: touchLRU ref clock rest := by
      unfold touchLRU
      rw [List.map_cons]
    by_cases hp : p.id = ref
    · have hrest : touchLRU ref clock rest = rest := by
        apply touchLRU_eq_self
        intro q hq hqid
        exact hid1 (List.mem_map.2 ⟨q, hq, hqid.trans hp.symm⟩)
      rw [hcons, hrest, if_pos hp, List.map_cons, List.nodup_cons]
      constructor
      · intro hmem
        obtain ⟨q, hq, hqts⟩ := List.mem_map.1 hmem
        exact absurd hqts (Nat.ne_of_lt (hlt2 q hq))
      · exact hts2
    · rw [hcons, if_neg hp, List.map_cons, List.nodup_cons]
      constructor
      · intro hmem
        obtain ⟨q', hq', hts'⟩ := List.mem_map.1 hmem
        obtain ⟨q, hq, hq'eq⟩ := touchLRU_mem ref clock rest q' hq'
        by_cases hqid : q.id = ref
        · rw [hq'eq, if_pos hqid] at hts'
          simp only at hts'
          exact absurd hts'.symm (Nat.ne_of_lt (hlt p (List.mem_cons_self p rest)))
        · rw [hq'eq, if_neg hqid] at hts'
          exact hts1 (List.mem_map.2 ⟨q, hq, hts'⟩)
      · exact ih hid2 hts2 hlt2

/-- After `touchLRU` every resident timestamp lies below the bumped clock. -/
theorem touchLRU_ts_lt (ref clock : Nat) (l : List Page)
    (hlt : ∀ p ∈ l, p.timestamp < clock) :
    ∀ q ∈ touchLRU ref clock l, q.timestamp < clock + 1 := by
  intro q hq
  obtain ⟨p, hp, hq'⟩ := touchLRU_mem ref clock l q hq
  subst hq'
  by_cases hpid : p.id = ref
  · rw [if_pos hpid]
    exact Nat.lt_succ_self clock
  · rw [if_neg hpid]
    exact lt_trans (hlt p hp) (Nat.lt_succ_self clock)

/-- The inductive invariant of the page-replacement engine: bounded
residency, distinct ids, distinct timestamps, timestamps below the
clock. -/
def PRInv (s : PRState) : Prop :=
  s.pages.length ≤ frameSize ∧
  (s.pages.map Page.id).Nodup ∧
  (s.pages.map Page.timestamp).Nodup ∧
  ∀ p ∈ s.pages, p.timestamp < s.clock

/-- The handler `prReset` re-establishes the invariant unconditionally. -/
theorem inv_reset (s : PRState) : PRInv (prReset s) := by
  refine ⟨?_, ?_, ?_, ?_⟩ <;> simp [prReset, frameSize]

/-- Stepping preserves the invariant. -/
theorem inv_step (s : PRState) (h : PRInv s) : PRInv (pageStep s).1 := by
  obtain ⟨hlen, hid, hts, hclk⟩ := h
  cases hg : s.sequence[s.currentStep]? with
  | none =>
    have hterm : pageStep s = (s, .complete) := by simp [pageStep, hg]
    rw [hterm]
    exact ⟨hlen, hid, hts, hclk⟩
  | some ref =>
    by_cases hres : ∀ p ∈ s.pages, ¬ p.id = ref
    · have hrefid : ref ∉ s.pages.map Page.id := by
        intro hmem
        obtain ⟨q, hq, hqid⟩ := List.mem_map.1 hmem
        exact hres q hq hqid
      have hrefts : s.clock ∉ s.pages.map Page.timestamp := by
        intro hmem
        obtain ⟨q, hq, hqts⟩ := List.mem_map.1 hmem
        exact absurd hqts (Nat.ne_of_lt (hclk q hq))
      by_cases hl : s.pages.length < frameSize
      · rw [pageStep_fault_append s ref hg hres hl]
        refine ⟨?_, ?_, ?_, ?_⟩
        · simp only [List.length_append, List.length_cons, List.length_nil]
          omega
        · rw [List.map_append, List.nodup_append_comm]
          simp only [List.map_cons, List.map_nil, List.singleton_append]
          exact List.nodup_cons.2 ⟨hrefid, hid⟩
        · rw [List.map_append, List.nodup_append_comm]
          simp only [List.map_cons, List.map_nil, List.singleton_append]
          exact List.nodup_cons.2 ⟨hrefts, hts⟩
        · intro q hq
          rcases List.mem_append.1 hq with hq | hq
          · exact lt_trans (hclk q hq) (Nat.lt_succ_self _)
          · rw [List.mem_singleton] at hq
            subst hq
            exact Nat.lt_succ_self _
      · cases halg : s.algorithm with
        | FIFO =>
          rw [pageStep_fault_fifo s ref hg hres hl halg]
          have htail : List.Sublist s.pages.tail s.pages := List.tail_sublist s.pages
          refine ⟨?_, ?_, ?_, ?_⟩
          · have hlen' : (s.pages.tail ++ [(⟨ref, s.clock, s.clock⟩ : Page)]).length
                = s.pages.length - 1 + 1 := by
              simp
            rw [hlen']
            have hpos : (0 : Nat) < frameSize := by decide
            omega
          · rw [List.map_append, List.nodup_append_comm]
            simp only [List.map_cons, List.map_nil, List.singleton_append]
            refine List.nodup_cons.2 ⟨?_, ?_⟩
            · intro hmem
              rw [List.map_tail] at hmem
              exact hrefid ((List.tail_sublist _).subset hmem)
            · exact (htail.map Page.id).nodup hid
          · rw [List.map_append, List.nodup_append_comm]
            simp only [List.map_cons, List.map_nil, List.singleton_append]
            refine List.nodup_cons.2 ⟨?_, ?_⟩
            · intro hmem
              rw [List.map_tail] at hmem
              exact hrefts ((List.tail_sublist _).subset hmem)
            · exact (htail.map Page.timestamp).nodup hts
          · intro q hq
            rcases List.mem_append.1 hq with hq | hq
            · exact lt_trans (hclk q (htail.subset hq)) (Nat.lt_succ_self _)
            · rw [List.mem_singleton] at hq
              subst hq
              exact Nat.lt_succ_self _
        | LRU =>
          rw [pageStep_fault_lru s ref hg hres hl halg]
          refine ⟨?_, ?_, ?_, ?_⟩
          · rw [List.length_set]
            exact hlen
          · rw [List.map_set]
            exact hid.set hrefid
          · rw [List.map_set]
            exact hts.set hrefts
          · intro q hq
            rcases List.mem_or_eq_of_mem_set hq with hq | hq
            · exact lt_trans (hclk q hq) (Nat.lt_succ_self _)
            · subst hq
              exact Nat.lt_succ_self _
    · cases halg : s.algorithm with
      | FIFO =>
        rw [pageStep_hit_fifo s ref hg hres halg]
        exact ⟨hlen, hid, hts, fun q hq => lt_trans (hclk q hq) (Nat.lt_succ_self _)⟩
      | LRU =>
        rw [pageStep_hit_lru s ref hg hres halg]
        refine ⟨?_, ?_, ?_, ?_⟩
        · rw [touchLRU_length]
          exact hlen
        · rw [touchLRU_map_id]
          exact hid
        · exact touchLRU_ts_nodup ref s.clock s.pages hid hts hclk
        · exact touchLRU_ts_lt ref s.clock s.pages hclk

/-- Every reachable state satisfies the invariant. -/
theorem reachable_inv (s : PRState) (h : Reachable s) : PRInv s := by
  induction h with
  | init a seq clock =>
    exact ⟨by simp [frameSize], by simp, by simp, by simp⟩
  | step _ ih => exact inv_step _ ih
  | reset _ ih => exact inv_reset _

/-- C8: in every state reachable by `pageStep` and `prReset` from an
initial empty state — for any reference sequence and either policy —
the resident set holds at most 3 pages, no two resident pages share an
id, and the `lastAccess` timestamps of resident pages are pairwise
distinct and totally ordered. -/
theorem resident_set_invariant (s : PRState) (h : Reachable s) :
    s.pages.length ≤ frameSize ∧
    (s.pages.map Page.id).Nodup ∧
    (s.pages.map Page.timestamp).Nodup ∧
    ∀ p ∈ s.pages, ∀ q ∈ s.pages,
      p.timestamp ≤ q.timestamp ∨ q.timestamp ≤ p.timestamp := by
  obtain ⟨h1, h2, h3, _⟩ := reachable_inv s h
  exact ⟨h1, h2, h3, fun p _ q _ => le_total p.timestamp q.timestamp⟩

/-- Closed witness for `resident_set_invariant`: the state after three
steps of the LRU engine on the reference sequence, reached through the
`Reachable` constructors. -/
theorem resident_set_invariant_witness :
    ((pageStep (pageStep (pageStep ⟨[], refSeq, 0, 0, .LRU, 0⟩).1).1).1.pages.length ≤ frameSize ∧
    ((pageStep (pageStep (pageStep ⟨[], refSeq, 0, 0, .LRU, 0⟩).1).1).1.pages.map Page.id).Nodup ∧
    ((pageStep (pageStep (pageStep ⟨[], refSeq, 0, 0, .LRU, 0⟩).1).1).1.pages.map
        Page.timestamp).Nodup ∧
    ∀ p ∈ (pageStep (pageStep (pageStep ⟨[], refSeq, 0, 0, .LRU, 0⟩).1).1).1.pages,
      ∀ q ∈ (pageStep (pageStep (pageStep ⟨[], refSeq, 0, 0, .LRU, 0⟩).1).1).1.pages,
        p.timestamp ≤ q.timestamp ∨ q.timestamp ≤ p.timestamp) :=
  resident_set_invariant _
    (Reachable.step (Reachable.step (Reachable.step (Reachable.init .LRU refSeq 0))))

/-! ## LRU eviction correctness and eviction slot behaviour -/

/-- C3: in every reachable LRU state, at a fault that requires an
eviction (resident set full, referenced id not resident), the evicted
page is the resident page with the smallest `lastAccess` timestamp;
and any resident page sharing that smallest timestamp is the victim
itself (reachable states have pairwise-distinct timestamps), so the
tie-break by smallest `loadOrder` holds as well. -/
theorem lru_evicts_least_recent (s : PRState) (h : Reachable s)
    (halg : s.algorithm = .LRU) (ref : Nat)
    (hg : s.sequence[s.currentStep]? = some ref)
    (hres : ∀ p ∈ s.pages, ¬ p.id = ref)
    (hl : ¬ s.pages.length < frameSize) :
    ∃ victim, victim ∈ s.pages ∧
      (pageStep s).2 = .fault (some victim.id) ∧
      (∀ p ∈ s.pages, victim.timestamp ≤ p.timestamp) ∧
      ∀ p ∈ s.pages, p.timestamp = victim.timestamp →
        victim.loadOrder ≤ p.loadOrder := by
  have hne : s.pages ≠ [] := by
    intro hnil
    rw [hnil] at hl
    exact hl (by decide)
  obtain ⟨hlt, hmin⟩ := lruVictimIdx_spec s.pages hne
  have hvmem : s.pages.get ⟨lruVictimIdx s.pages, hlt⟩ ∈ s.pages :=
    List.get_mem _ _ _
  have hgetD : s.pages.getD (lruVictimIdx s.pages) default
      = s.pages.get ⟨lruVictimIdx s.pages, hlt⟩ := List.getD_eq_get _ _ hlt
  refine ⟨s.pages.get ⟨lruVictimIdx s.pages, hlt⟩, hvmem, ?_, hmin, ?_⟩
  · rw [pageStep_fault_lru s ref hg hres hl halg]
    simp only []
    rw [hgetD]
  · intro p hp hpts
    obtain ⟨_, _, htsnd, _⟩ := reachable_inv s h
    have hpv : p = s.pages.get ⟨lruVictimIdx s.pages, hlt⟩ :=
      List.inj_on_of_nodup_map htsnd hp hvmem (by rw [hpts])
    rw [hpv]

/-- Closed witness for `lru_evicts_least_recent`: the reachable LRU
state after loading 1, 3, 0 on sequence `[1,3,0,5]`, about to
reference 5. -/
theorem lru_evicts_least_recent_witness :
    ∃ victim, victim ∈ (pageStep (pageStep (pageStep
        ⟨[], [1, 3, 0, 5], 0, 0, .LRU, 0⟩).1).1).1.pages ∧
      (pageStep (pageStep (pageStep (pageStep
          ⟨[], [1, 3, 0, 5], 0, 0, .LRU, 0⟩).1).1).1).2 = .fault (some victim.id) ∧
      (∀ p ∈ (pageStep (pageStep (pageStep
          ⟨[], [1, 3, 0, 5], 0, 0, .LRU, 0⟩).1).1).1.pages,
        victim.timestamp ≤ p.timestamp) ∧
      ∀ p ∈ (pageStep (pageStep (pageStep
          ⟨[], [1, 3, 0, 5], 0, 0, .LRU, 0⟩).1).1).1.pages,
        p.timestamp = victim.timestamp → victim.loadOrder ≤ p.loadOrder :=
  lru_evicts_least_recent _
    (Reachable.step (Reachable.step (Reachable.step (Reachable.init .LRU [1, 3, 0, 5] 0))))
    (by decide) 5 (by decide) (by decide) (by decide)

/-- C9 counterexample: under FIFO at full capacity with resident ids
`[1, 3, 0]`, referencing 5 evicts the victim at slot 0 but appends the
new page at the tail: the resulting id order is `[3, 0, 5]`, not the
in-place `[5, 3, 0]`, so the new page does not occupy the victim's
slot and the other resident pages do not keep theirs. -/
theorem fifo_not_in_place_counterexample :
    ((pageStep ⟨[⟨1, 0, 0⟩, ⟨3, 1, 1⟩, ⟨0, 2, 2⟩], [5], 0, 0, .FIFO, 3⟩).1.pages.map Page.id
      = [3, 0, 5]) ∧
    ((pageStep ⟨[⟨1, 0, 0⟩, ⟨3, 1, 1⟩, ⟨0, 2, 2⟩], [5], 0, 0, .FIFO, 3⟩).1.pages.map Page.id
      ≠ [5, 3, 0]) ∧
    (pageStep ⟨[⟨1, 0, 0⟩, ⟨3, 1, 1⟩, ⟨0, 2, 2⟩], [5], 0, 0, .FIFO, 3⟩).1.pages.get? 0
      ≠ some ⟨5, 3, 3⟩ := by decide

/-- C9 amended: on a fault with the resident set full, LRU replaces
the victim in place — the new page occupies the victim's slot and
every other page keeps its slot — while FIFO removes the victim from
slot 0 and appends the new page at the tail, shifting the remaining
pages down one slot; in both cases the step reports a fault carrying
the victim's id. -/
theorem eviction_slot_behaviour (s : PRState) (ref : Nat)
    (hg : s.sequence[s.currentStep]? = some ref)
    (hres : ∀ p ∈ s.pages, ¬ p.id = ref)
    (hl : ¬ s.pages.length < frameSize) :
    (s.algorithm = .LRU →
      ∃ victim, s.pages.get? (lruVictimIdx s.pages) = some victim ∧
        (pageStep s).1.pages.get? (lruVictimIdx s.pages) = some ⟨ref, s.clock, s.clock⟩ ∧
        (∀ j, j ≠ lruVictimIdx s.pages → (pageStep s).1.pages.get? j = s.pages.get? j) ∧
        (pageStep s).2 = .fault (some victim.id)) ∧
    (s.algorithm = .FIFO →
      ∃ victim, s.pages.get? 0 = some victim ∧
        (∀ j, j + 1 < s.pages.length → (pageStep s).1.pages.get? j = s.pages.get? (j + 1)) ∧
        (pageStep s).1.pages.get? (s.pages.length - 1) = some ⟨ref, s.clock, s.clock⟩ ∧
        (pageStep s).2 = .fault (some victim.id)) := by
  have hne : s.pages ≠ [] := by
    intro hnil
    rw [hnil] at hl
    exact hl (by decide)
  constructor
  · intro halg
    obtain ⟨hlt, _⟩ := lruVictimIdx_spec s.pages hne
    have hgetD : s.pages.getD (lruVictimIdx s.pages) default
        = s.pages.get ⟨lruVictimIdx s.pages, hlt⟩ := List.getD_eq_get _ _ hlt
    refine ⟨s.pages.get ⟨lruVictimIdx s.pages, hlt⟩, List.get?_eq_get hlt, ?_, ?_, ?_⟩
    · rw [pageStep_fault_lru s ref hg hres hl halg]
      simp only []
      exact List.get?_set_eq_of_lt _ hlt
    · intro j hj
      rw [pageStep_fault_lru s ref hg hres hl halg]
      simp only []
      exact List.get?_set_ne _ _ (fun hmi => hj hmi.symm)
    · rw [pageStep_fault_lru s ref hg hres hl halg]
      simp only []
      rw [hgetD]
  · intro halg
    cases hpages : s.pages with
    | nil => exact absurd hpages hne
    | cons p0 rest =>
      rw [pageStep_fault_fifo s ref hg hres hl halg]
      refine ⟨p0, rfl, ?_, ?_, ?_⟩
      · intro j hj
        simp only [List.length_cons] at hj
        have hj' : j < rest.length := by omega
        simp only [hpages, List.tail_cons]
        rw [List.get?_append hj']
        rfl
      · simp only [hpages, List.tail_cons, List.length_cons]
        have hlen' : rest.length + 1 - 1 = rest.length := by omega
        rw [hlen', List.get?_append_right (le_refl rest.length)]
        simp
      · simp only [hpages, List.head?_cons]
        rfl

/-- Closed witness for `eviction_slot_behaviour`: a full LRU state
with resident ids `[1, 3, 0]` referencing 5. -/
theorem eviction_slot_behaviour_witness :
    ((⟨[⟨1, 0, 0⟩, ⟨3, 1, 1⟩, ⟨0, 2, 2⟩], [5], 0, 0, .LRU, 3⟩ : PRState).algorithm = .LRU →
      ∃ victim,
        (⟨[⟨1, 0, 0⟩, ⟨3, 1, 1⟩, ⟨0, 2, 2⟩], [5], 0, 0, .LRU, 3⟩ : PRState).pages.get?
            (lruVictimIdx (⟨[⟨1, 0, 0⟩, ⟨3, 1, 1⟩, ⟨0, 2, 2⟩], [5], 0, 0, .LRU, 3⟩ :
              PRState).pages) = some victim ∧
        (pageStep ⟨[⟨1, 0, 0⟩, ⟨3, 1, 1⟩, ⟨0, 2, 2⟩], [5], 0, 0, .LRU, 3⟩).1.pages.get?
            (lruVictimIdx (⟨[⟨1, 0, 0⟩, ⟨3, 1, 1⟩, ⟨0, 2, 2⟩], [5], 0, 0, .LRU, 3⟩ :
              PRState).pages) = some ⟨5, 3, 3⟩ ∧
        (∀ j, j ≠ lruVictimIdx (⟨[⟨1, 0, 0⟩, ⟨3, 1, 1⟩, ⟨0, 2, 2⟩], [5], 0, 0, .LRU, 3⟩ :
              PRState).pages →
          (pageStep ⟨[⟨1, 0, 0⟩, ⟨3, 1, 1⟩, ⟨0, 2, 2⟩], [5], 0, 0, .LRU, 3⟩).1.pages.get? j
            = (⟨[⟨1, 0, 0⟩, ⟨3, 1, 1⟩, ⟨0, 2, 2⟩], [5], 0, 0, .LRU, 3⟩ :
                PRState).pages.get? j) ∧
        (pageStep ⟨[⟨1, 0, 0⟩, ⟨3, 1, 1⟩, ⟨0, 2, 2⟩], [5], 0, 0, .LRU, 3⟩).2
          = .fault (some victim.id)) ∧
    ((⟨[⟨1, 0, 0⟩, ⟨3, 1, 1⟩, ⟨0, 2, 2⟩], [5], 0, 0, .LRU, 3⟩ : PRState).algorithm = .FIFO →
      ∃ victim,
        (⟨[⟨1, 0, 0⟩, ⟨3, 1, 1⟩, ⟨0, 2, 2⟩], [5], 0, 0, .LRU, 3⟩ : PRState).pages.get? 0
          = some victim ∧
        (∀ j, j + 1 < (⟨[⟨1, 0, 0⟩, ⟨3, 1, 1⟩, ⟨0, 2, 2⟩], [5], 0, 0, .LRU, 3⟩ :
              PRState).pages.length →
          (pageStep ⟨[⟨1, 0, 0⟩, ⟨3, 1, 1⟩, ⟨0, 2, 2⟩], [5], 0, 0, .LRU, 3⟩).1.pages.get? j
            = (⟨[⟨1, 0, 0⟩, ⟨3, 1, 1⟩, ⟨0, 2, 2⟩], [5], 0, 0, .LRU, 3⟩ :
                PRState).pages.get? (j + 1)) ∧
        (pageStep ⟨[⟨1, 0, 0⟩, ⟨3, 1, 1⟩, ⟨0, 2, 2⟩], [5], 0, 0, .LRU, 3⟩).1.pages.get?
            ((⟨[⟨1, 0, 0⟩, ⟨3, 1, 1⟩, ⟨0, 2, 2⟩], [5], 0, 0, .LRU, 3⟩ :
              PRState).pages.length - 1) = some ⟨5, 3, 3⟩ ∧
        (pageStep ⟨[⟨1, 0, 0⟩, ⟨3, 1, 1⟩, ⟨0, 2, 2⟩], [5], 0, 0, .LRU, 3⟩).2
          = .fault (some victim.id)) :=
  eviction_slot_behaviour ⟨[⟨1, 0, 0⟩, ⟨3, 1, 1⟩, ⟨0, 2, 2⟩], [5], 0, 0, .LRU, 3⟩ 5
    (by decide) (by decide) (by decide)
